import Mathlib

/-!
# Verification of the WASp BI[L]O[U] segmentation scorer

Shallow embedding of `src/wasp/main.py`.  Numeric scores (Python floats,
combined with the exact `math.fsum`) are modelled as rationals; the values
arising in the program are 0/1 benefits and small Dice fractions, for which
float and rational arithmetic agree on the properties stated here.  Fallible
Python code (`raise ValueError`, `ZeroDivisionError`, the scipy dimension
check) is modelled with `Except`/`Option`.
-/

namespace Wasp

/-- Embeds the `TypedSpan` named tuple (`start`, `end`, `type`).  `end` is a
Lean keyword, so the field is called `stop`.  Coordinates are token indices
(natural numbers), as produced by `spans_from_labels`. -/
structure TypedSpan where
  start : Nat
  stop : Nat
  type : Option String
deriving DecidableEq, Repr

/-- Embeds `exact_coef`: `1.0 if a == b else 0.0`. -/
def exactCoef (a b : TypedSpan) : ℚ :=
  if a = b then 1 else 0

/-- Embeds `dice_coef`.  Python raises `ZeroDivisionError` when the types
agree and the denominator `a.end - a.start + b.end - b.start` is zero; that
case is `none`.  Arithmetic is done in `ℚ` after casting each field, matching
Python's signed integer arithmetic on the fields. -/
def diceCoef (a b : TypedSpan) : Option ℚ :=
  if a.type ≠ b.type then some 0
  else
    let denom : ℚ := (a.stop : ℚ) - (a.start : ℚ) + (b.stop : ℚ) - (b.start : ℚ)
    if denom = 0 then none
    else some (2 * max (min (a.stop : ℚ) (b.stop : ℚ) - max (a.start : ℚ) (b.start : ℚ)) 0 / denom)

/-- All ways to pick one element out of a list, returning the element and the
remaining list (order preserved).  Used to express the exact optimum of the
linear assignment problem solved by `scipy.optimize.linear_sum_assignment`. -/
def picks : List TypedSpan → List (TypedSpan × List TypedSpan)
  | [] => []
  | b :: bs => (b, bs) :: (picks bs).map (fun p => (p.1, b :: p.2))

/-- The optimum of the assignment problem in which every element of `as` must
be matched to a distinct element of `bs` (meaningful when
`as.length ≤ bs.length`, which is how it is invoked): the maximal total
benefit over all such matchings.  `scipy.optimize.linear_sum_assignment`
returns exactly this optimum (it assigns every index of the smaller
dimension). -/
def assignAll (f : TypedSpan → TypedSpan → ℚ) : List TypedSpan → List TypedSpan → ℚ
  | [], _ => 0
  | a :: as, bs => ((picks bs).map (fun p => f a p.1 + assignAll f as p.2)).foldr max 0

/-- The value `-cost_matrix[row_ind, col_ind].sum()` computed by
`aligned_score`: the optimal linear-assignment total over the
`|syst| × |gold|` benefit matrix `M[s][g] = score(g, s)`.  The solver matches
all of the smaller dimension. -/
def optScore (score : TypedSpan → TypedSpan → ℚ) (gold syst : List TypedSpan) : ℚ :=
  if syst.length ≤ gold.length then assignAll (fun s g => score g s) syst gold
  else assignAll (fun g s => score g s) gold syst

/-- Number of dimensions of `np.array(rows)` for a rectangular list of rows:
an empty outer list yields a 1-D array of shape `(0,)`, a non-empty one a 2-D
array (each row has the same length here). -/
def npNdim (rows : List (List ℚ)) : Nat :=
  if rows = [] then 1 else 2

/-- Embeds `aligned_score`.  The cost matrix is
`[[-score(g, s) for g in gold] for s in syst]`;
`scipy.optimize.linear_sum_assignment` raises `ValueError` unless the array
is 2-D, which fails exactly when `syst` is empty (`none`).  Otherwise the
result is `(total_score, pos, tru)` with `pos = fsum(score(s, s) for s in syst)`
and `tru = fsum(score(g, g) for g in gold)` — the system-side self-sum comes
second and the gold-side self-sum third, as in the source. -/
def alignedScore (gold syst : List TypedSpan)
    (score : TypedSpan → TypedSpan → ℚ) : Option (ℚ × ℚ × ℚ) :=
  let costMatrix := syst.map (fun s => gold.map (fun g => -score g s))
  if npNdim costMatrix ≠ 2 then none
  else
    some (optScore score gold syst,
      (syst.map (fun s => score s s)).sum,
      (gold.map (fun g => score g g)).sum)

/-- The `ValueError`s raised by `spans_from_labels`, with the data carried in
their message (in particular the offending index). -/
inductive SeqError where
  | invalidLabel (i : Nat)
  | invalidLabelAction (i : Nat)
  | incoherentLabelType (i : Nat)
  | labelLInvalidInBioMode
  | labelUInvalidInBioMode
  | unclosedSegment
deriving DecidableEq, Repr

/-- The index mentioned in the error message, when there is one. -/
def SeqError.index? : SeqError → Option Nat
  | .invalidLabel i => some i
  | .invalidLabelAction i => some i
  | .incoherentLabelType i => some i
  | .labelLInvalidInBioMode => none
  | .labelUInvalidInBioMode => none
  | .unclosedSegment => none

/-- The loop state of `spans_from_labels`: the `spans` accumulator and the
`current_start` / `current_type` variables. -/
structure ExtractState where
  spans : List TypedSpan
  currentStart : Option Nat
  currentType : Option String
deriving DecidableEq, Repr

/-- One iteration of the `spans_from_labels` loop at index `i`.  A label whose
action is none of `B`, `I`, `L`, `O`, `U` is silently ignored, as in the
source (the `if`/`elif` chain has no `else`). -/
def spansStep (bilou : Bool) (i : Nat) (st : ExtractState)
    (lab : String × Option String) : Except SeqError ExtractState :=
  if lab.1 = "B" then
    match st.currentStart with
    | some cs =>
      if bilou then .error (.invalidLabel i)
      else .ok ⟨st.spans ++ [⟨cs, i, st.currentType⟩], some i, lab.2⟩
    | none => .ok ⟨st.spans, some i, lab.2⟩
  else if lab.1 = "I" then
    match st.currentStart with
    | some _ =>
      if lab.2 = st.currentType then .ok st
      else .error (.incoherentLabelType i)
    | none => .error (.invalidLabelAction i)
  else if lab.1 = "L" then
    if bilou then
      match st.currentStart with
      | some cs =>
        if lab.2 = st.currentType then
          .ok ⟨st.spans ++ [⟨cs, i + 1, st.currentType⟩], none, none⟩
        else .error (.incoherentLabelType i)
      | none => .error (.invalidLabel i)
    else .error .labelLInvalidInBioMode
  else if lab.1 = "O" then
    match st.currentStart with
    | some cs =>
      if bilou then .error (.invalidLabel i)
      else .ok ⟨st.spans ++ [⟨cs, i, st.currentType⟩], none, none⟩
    | none => .ok st
  else if lab.1 = "U" then
    if bilou then
      match st.currentStart with
      | some _ => .error (.invalidLabel i)
      | none => .ok ⟨st.spans ++ [⟨i, i + 1, lab.2⟩], st.currentStart, st.currentType⟩
    else .error .labelUInvalidInBioMode
  else .ok st

/-- The `spans_from_labels` loop, processing the remaining labels from
index `i` onwards. -/
def spansGo (bilou : Bool) : Nat → ExtractState → List (String × Option String) →
    Except SeqError ExtractState
  | _, st, [] => .ok st
  | i, st, lab :: rest => do
    spansGo bilou (i + 1) (← spansStep bilou i st lab) rest

/-- Embeds `spans_from_labels`.  After the loop, a still-open span is an
error under BILOU (`Unclosed segment`) and is closed at the sequence end
under BIO (the source closes it at `i + 1` where `i` is the last index,
i.e. at `labels.length`). -/
def spansFromLabels (labels : List (String × Option String)) (bilou : Bool) :
    Except SeqError (List TypedSpan) := do
  let st ← spansGo bilou 0 ⟨[], none, none⟩ labels
  match st.currentStart with
  | some cs =>
    if bilou then .error .unclosedSegment
    else .ok (st.spans ++ [⟨cs, labels.length, st.currentType⟩])
  | none => .ok st.spans

/-- Helper for `pySplit`: splits a character list on whitespace runs, `cur`
holding the characters of the current word in reverse. -/
def pySplitAux (cur : List Char) : List Char → List String
  | [] => if cur = [] then [] else [String.mk cur.reverse]
  | c :: rest =>
    if c.isWhitespace then
      if cur = [] then pySplitAux [] rest
      else String.mk cur.reverse :: pySplitAux [] rest
    else pySplitAux (c :: cur) rest

/-- Python `str.split()` with no argument: split on runs of whitespace,
discarding empty pieces. -/
def pySplit (s : String) : List String :=
  pySplitAux [] s.data

/-- Python list indexing `l[i]` with negative-index support; `none` models
`IndexError`. -/
def pyGet (l : List String) (i : Int) : Option String :=
  if 0 ≤ i then l.get? i.toNat
  else if (-i).toNat ≤ l.length then l.get? (l.length - (-i).toNat) else none

/-- Greedy prefix match of the default label pattern
`(?P<type>.*)_(?P<action>[BILOU])` over a character list: the split is at the
last underscore followed by an action character (greedy `.*`); characters
after the action character are ignored (`re.match` is a prefix match).
Returns the type characters and the action character. -/
def splitLabelAux : List Char → Option (List Char × Char)
  | [] => none
  | c :: rest =>
    match splitLabelAux rest with
    | some (pre, a) => some (c :: pre, a)
    | none =>
      if c = '_' then
        match rest with
        | a :: _ =>
          if a = 'B' ∨ a = 'I' ∨ a = 'L' ∨ a = 'O' ∨ a = 'U' then some ([], a)
          else none
        | [] => none
      else none

/-- Embeds `process_label` with the default `--label-regex`
`(?P<type>.*)_(?P<action>[BILOU])`: `none` models the `ValueError` raised
when the label does not match. -/
def defaultLabelDecode (s : String) : Option (String × Option String) :=
  (splitLabelAux s.data).map (fun p => (String.mk [p.2], some (String.mk p.1)))

/-- Embeds `process_block`, with the label decoding abstracted to a function
`decode` (the regular-expression machinery of `process_label` is modelled by
`defaultLabelDecode` for the default pattern).  `none` models any of the
`ValueError`s: a missing column, a label that does not decode, an invalid
label sequence, or the assignment-solver failure inside `aligned_score`.
`set(...)` on the extracted span lists is modelled by `List.dedup`. -/
def processBlock (block : List String) (decode : String → Option (String × Option String))
    (goldColumn systColumn : Int) (bilou : Bool)
    (score : TypedSpan → TypedSpan → ℚ) : Option (ℚ × ℚ × ℚ) := do
  let goldLabels ← block.mapM (fun line => do
    decode (← pyGet (pySplit line) goldColumn))
  let systLabels ← block.mapM (fun line => do
    decode (← pyGet (pySplit line) systColumn))
  let goldSpans ← (spansFromLabels goldLabels bilou).toOption
  let systSpans ← (spansFromLabels systLabels bilou).toOption
  alignedScore goldSpans.dedup systSpans.dedup score

/-- The `process_file` loop.  `cur` is `current_block`; `tps`, `ts`, `ps` are
the `tru_pos`, `tru` and `pos` lists.  A blank line (`not l`, i.e. `l == ""`)
flushes the current block; the final return sums the three lists.  Note that
the source appends the *second* component of each block result (the
system-side self-sum `pos`) to the list `tru` and the *third* (the gold-side
`tru`) to the list `pos`, and that a trailing unterminated block is never
processed — both faithfully reproduced here. -/
def processFileGo (decode : String → Option (String × Option String))
    (goldColumn systColumn : Int) (bilou : Bool)
    (score : TypedSpan → TypedSpan → ℚ) :
    List String → List String → List ℚ → List ℚ → List ℚ → Option (ℚ × ℚ × ℚ)
  | [], _cur, tps, ts, ps => some (tps.sum, ts.sum, ps.sum)
  | l :: rest, cur, tps, ts, ps =>
    if l = "" then
      match processBlock cur decode goldColumn systColumn bilou score with
      | none => none
      | some (tp, t, p) =>
        processFileGo decode goldColumn systColumn bilou score rest []
          (tps ++ [tp]) (ts ++ [t]) (ps ++ [p])
    else processFileGo decode goldColumn systColumn bilou score rest (cur ++ [l]) tps ts ps

/-- Embeds `process_file`. -/
def processFile (lines : List String) (decode : String → Option (String × Option String))
    (goldColumn systColumn : Int) (bilou : Bool)
    (score : TypedSpan → TypedSpan → ℚ) : Option (ℚ × ℚ × ℚ) :=
  processFileGo decode goldColumn systColumn bilou score lines [] [] [] []

/-! ## Basic lemmas -/

theorem exactCoef_self (a : TypedSpan) : exactCoef a a = 1 := by
  simp [exactCoef]

theorem exactCoef_le_one (a b : TypedSpan) : exactCoef a b ≤ 1 := by
  unfold exactCoef; split <;> norm_num

theorem sum_exactCoef_self (l : List TypedSpan) :
    (l.map (fun s => exactCoef s s)).sum = l.length := by
  induction l with
  | nil => simp
  | cons a l ih => simp [exactCoef_self, ih]; ring

/-- Unfolding of `alignedScore` for a non-empty system list. -/
theorem alignedScore_cons (gold : List TypedSpan) (s0 : TypedSpan) (syst : List TypedSpan)
    (score : TypedSpan → TypedSpan → ℚ) :
    alignedScore gold (s0 :: syst) score =
      some (optScore score gold (s0 :: syst),
        ((s0 :: syst).map (fun s => score s s)).sum,
        (gold.map (fun g => score g g)).sum) := by
  simp [alignedScore, npNdim]

theorem alignedScore_syst_nil (gold : List TypedSpan)
    (score : TypedSpan → TypedSpan → ℚ) : alignedScore gold [] score = none := by
  simp [alignedScore, npNdim]

end Wasp

namespace Wasp

/-- **C1.**  The claim states that `aligned_score` returns
`(matched_score, gold_self, system_self)` and `process_file` returns
`(matched_total, gold_total, system_total)`.  The code instead returns the
system-side self-similarity sum second and the gold-side sum third: on the
spec's own Scenario A block (gold spans `{(0,2,PER),(3,4,LOC)}`, system spans
`{(0,2,PER)}`, exact similarity) both results are `(1, 1, 2)` — the second
component is the system-side sum `1`, not the gold-side sum `2`. -/
theorem aligned_score_components_swapped :
    alignedScore [⟨0, 2, some "PER"⟩, ⟨3, 4, some "LOC"⟩] [⟨0, 2, some "PER"⟩] exactCoef
        = some (1, 1, 2)
      ∧ processFile ["t PER_B PER_B", "t PER_L PER_L", "t _O _O", "t _O LOC_U", ""]
          defaultLabelDecode (-1) (-2) true exactCoef = some (1, 1, 2)
      ∧ ([(⟨0, 2, some "PER"⟩ : TypedSpan), ⟨3, 4, some "LOC"⟩].map
          (fun g => exactCoef g g)).sum = 2 := by
  have hA : alignedScore [⟨0, 2, some "PER"⟩, ⟨3, 4, some "LOC"⟩] [⟨0, 2, some "PER"⟩]
      exactCoef = some (1, 1, 2) := by
    rw [alignedScore_cons]
    norm_num [optScore, assignAll, picks, exactCoef]
  refine ⟨hA, ?_, by norm_num [exactCoef]⟩
  have hb : processBlock ["t PER_B PER_B", "t PER_L PER_L", "t _O _O", "t _O LOC_U"]
        defaultLabelDecode (-1) (-2) true exactCoef
      = alignedScore [⟨0, 2, some "PER"⟩, ⟨3, 4, some "LOC"⟩] [⟨0, 2, some "PER"⟩]
          exactCoef := rfl
  rw [hA] at hb
  simp [processFile, processFileGo, hb]

/-- **C3.**  The claim states that a trailing block not terminated by a blank
line is still processed.  The code never flushes `current_block` after the
loop: the one-block input `["t PER_U PER_U"]` (no terminating blank line)
yields `(0, 0, 0)`, while the same block terminated by a blank line yields
`(1, 1, 1)` — the trailing block is silently discarded. -/
theorem trailing_block_dropped :
    processFile ["t PER_U PER_U"] defaultLabelDecode (-1) (-2) true exactCoef
        = some (0, 0, 0)
      ∧ processFile ["t PER_U PER_U", ""] defaultLabelDecode (-1) (-2) true exactCoef
        = some (1, 1, 1) := by
  refine ⟨rfl, ?_⟩
  have hb : processBlock ["t PER_U PER_U"] defaultLabelDecode (-1) (-2) true exactCoef
      = alignedScore [⟨0, 1, some "PER"⟩] [⟨0, 1, some "PER"⟩] exactCoef := rfl
  have hA : alignedScore [⟨0, 1, some "PER"⟩] [⟨0, 1, some "PER"⟩] exactCoef
      = some (1, 1, 1) := by
    rw [alignedScore_cons]
    norm_num [optScore, assignAll, picks, exactCoef]
  rw [hA] at hb
  simp [processFile, processFileGo, hb]

/-- **C4.**  The claim states that an empty block contributes `(0, 0, 0)`
without error.  In the code an empty block reaches `aligned_score` with two
empty span sets, the benefit matrix `np.array([])` is one-dimensional, the
assignment solver rejects it, and `process_file` propagates the `ValueError`:
on the input `[""]` (a single blank line, hence one empty block) the whole
computation fails instead of returning `(0, 0, 0)`. -/
theorem empty_block_raises :
    processFile [""] defaultLabelDecode (-1) (-2) true exactCoef = none
      ∧ alignedScore [] [] exactCoef = none := by
  exact ⟨rfl, rfl⟩

/-- **C10.**  Whenever the system span set is empty the benefit matrix is the
one-dimensional `np.array([])`, the assignment solver rejects it and
`aligned_score` fails; an empty gold set with a non-empty system set yields a
well-formed zero-column matrix and returns normally (with matched score `0`,
system self-sum, and gold self-sum `0`). -/
theorem aligned_score_empty_sides (score : TypedSpan → TypedSpan → ℚ) :
    (∀ gold : List TypedSpan, alignedScore gold [] score = none)
      ∧ ∀ syst : List TypedSpan, syst ≠ [] →
          alignedScore [] syst score
            = some (0, (syst.map (fun s => score s s)).sum, 0) := by
  constructor
  · intro gold; exact alignedScore_syst_nil gold score
  · intro syst hne
    obtain ⟨s0, rest, rfl⟩ := List.exists_cons_of_ne_nil hne
    rw [alignedScore_cons]
    have hopt : optScore score [] (s0 :: rest) = 0 := by
      simp [optScore, assignAll]
    simp [hopt]

/-! ## The extraction loop on compound label sequences -/

/-- Processing `l1 ++ l2` runs `l1` first, then `l2` from index `i + l1.length`. -/
theorem spansGo_append (bilou : Bool) (l1 l2 : List (String × Option String)) :
    ∀ (i : Nat) (st : ExtractState),
      spansGo bilou i st (l1 ++ l2)
        = (spansGo bilou i st l1).bind (fun st2 => spansGo bilou (i + l1.length) st2 l2) := by
  induction l1 with
  | nil => intro i st; simp only [List.nil_append, List.length_nil, Nat.add_zero]; rfl
  | cons lab rest ih =>
    intro i st
    have hlen : i + (lab :: rest).length = (i + 1) + rest.length := by
      simp only [List.length_cons]; omega
    rw [hlen]
    show (spansStep bilou i st lab).bind (fun st1 => spansGo bilou (i + 1) st1 (rest ++ l2))
      = ((spansStep bilou i st lab).bind (fun st1 => spansGo bilou (i + 1) st1 rest)).bind
          (fun st2 => spansGo bilou ((i + 1) + rest.length) st2 l2)
    cases spansStep bilou i st lab with
    | error e => rfl
    | ok st1 => exact ih (i + 1) st1

/-! ## Orphan and mismatched I actions (C6) -/

/-- **C6.**  If the loop reaches index `i` in state `st` (no error so far),
the label at `i` has action `I`, and either no span is open or the open
span's type differs from the label's type, then `spans_from_labels` fails
with a `ValueError` whose message references index `i` (either
`Invalid label action at i` or `Incoherent label type at i`). -/
theorem orphan_I_fails (labels : List (String × Option String)) (bilou : Bool)
    (i : Nat) (t : Option String) (st : ExtractState)
    (hrun : spansGo bilou 0 ⟨[], none, none⟩ (labels.take i) = .ok st)
    (hlab : labels[i]? = some ("I", t))
    (hbad : st.currentStart = none ∨ st.currentType ≠ t) :
    ∃ e : SeqError, spansFromLabels labels bilou = .error e ∧ e.index? = some i := by
  have hi : i < labels.length := (List.getElem?_eq_some.mp hlab).1
  have hgot : labels[i] = ("I", t) := by
    simpa [List.getElem?_eq_getElem hi] using hlab
  have hsplit : labels = labels.take i ++ (("I", t) :: labels.drop (i + 1)) := by
    conv_lhs => rw [← List.take_append_drop i labels]
    rw [List.drop_eq_getElem_cons hi, hgot]
  have hlen : (labels.take i).length = i := by
    simp [List.length_take, Nat.min_eq_left hi.le]
  have hstep : ∃ e : SeqError, spansStep bilou i st ("I", t) = .error e ∧ e.index? = some i := by
    cases hcs : st.currentStart with
    | none =>
      refine ⟨.invalidLabelAction i, ?_, rfl⟩
      simp [spansStep, hcs]
    | some cs =>
      have hty : st.currentType ≠ t := by
        rcases hbad with h | h
        · rw [hcs] at h; cases h
        · exact h
      have hty2 : ¬ (t = st.currentType) := fun h => hty (Eq.symm h)
      refine ⟨.incoherentLabelType i, ?_, rfl⟩
      simp [spansStep, hcs, hty2]
  obtain ⟨e, he, hidx⟩ := hstep
  refine ⟨e, ?_, hidx⟩
  have hgo : spansGo bilou 0 ⟨[], none, none⟩ labels = .error e := by
    conv_lhs => rw [hsplit]
    rw [spansGo_append, hrun]
    show spansGo bilou (0 + (labels.take i).length) st (("I", t) :: labels.drop (i + 1))
      = Except.error e
    rw [hlen, Nat.zero_add]
    show (spansStep bilou i st ("I", t)).bind _ = Except.error e
    rw [he]
    rfl
  unfold spansFromLabels
  rw [hgo]
  rfl

/-- Witness for C6: the spec's Scenario C, a sequence beginning with an `I`
action, fails with an error referencing index 0. -/
theorem orphan_I_fails_witness :
    ∃ e : SeqError, spansFromLabels [("I", some "PER")] true = .error e
      ∧ e.index? = some 0 :=
  orphan_I_fails [("I", some "PER")] true 0 (some "PER") ⟨[], none, none⟩ rfl rfl (Or.inl rfl)

/-! ## Well-formedness of extracted spans (C9) -/

/-- The position every span emitted so far must end at or before: the open
span's start if one is open, the current index otherwise. -/
def curBound (st : ExtractState) (k : Nat) : Nat :=
  match st.currentStart with
  | some cs => cs
  | none => k

/-- The loop invariant of `spans_from_labels` at index `k`: emitted spans are
non-empty, emitted in left-to-right disjoint order, all ending at or before
`curBound`, and any open span started strictly before `k`. -/
def StInv (st : ExtractState) (k : Nat) : Prop :=
  (∀ s ∈ st.spans, s.start < s.stop)
    ∧ st.spans.Pairwise (fun a b => a.stop ≤ b.start)
    ∧ (∀ s ∈ st.spans, s.stop ≤ curBound st k)
    ∧ (∀ cs, st.currentStart = some cs → cs < k)

theorem pairwise_append_span (spans : List TypedSpan) (s : TypedSpan) (bound : Nat)
    (hp : spans.Pairwise (fun a b => a.stop ≤ b.start))
    (hb : ∀ x ∈ spans, x.stop ≤ bound) (hs : bound ≤ s.start) :
    (spans ++ [s]).Pairwise (fun a b => a.stop ≤ b.start) := by
  rw [List.pairwise_append]
  refine ⟨hp, List.pairwise_singleton _ _, fun a ha b hb' => ?_⟩
  simp only [List.mem_singleton] at hb'
  subst hb'
  exact le_trans (hb a ha) hs

/-- Auxiliary: the invariant after emitting the span `(a, b, ty)` on top of
spans all ending at or before `a`. -/
theorem StInv_after_emit (spans : List TypedSpan) (k a b : Nat) (ty : Option String)
    (ncs : Option Nat) (nty : Option String)
    (h1 : ∀ s ∈ spans, s.start < s.stop)
    (h2 : spans.Pairwise (fun x y => x.stop ≤ y.start))
    (hb : ∀ x ∈ spans, x.stop ≤ a)
    (hab : a < b)
    (hbnd : b ≤ curBound ⟨spans ++ [⟨a, b, ty⟩], ncs, nty⟩ (k + 1))
    (hncs : ∀ cs, ncs = some cs → cs < k + 1) :
    StInv ⟨spans ++ [⟨a, b, ty⟩], ncs, nty⟩ (k + 1) := by
  refine ⟨?_, ?_, ?_, hncs⟩
  · intro s hs
    rcases List.mem_append.mp hs with hs | hs
    · exact h1 s hs
    · simp only [List.mem_singleton] at hs; subst hs; exact hab
  · exact pairwise_append_span spans ⟨a, b, ty⟩ a h2 hb (le_refl a)
  · intro s hs
    rcases List.mem_append.mp hs with hs | hs
    · exact le_trans (hb s hs) (le_trans hab.le hbnd)
    · simp only [List.mem_singleton] at hs; subst hs; exact hbnd

theorem spansStep_inv (bilou : Bool) (k : Nat) (st st' : ExtractState)
    (lab : String × Option String) (hinv : StInv st k)
    (h : spansStep bilou k st lab = .ok st') : StInv st' (k + 1) := by
  obtain ⟨act, ty⟩ := lab
  obtain ⟨h1, h2, h3, h4⟩ := hinv
  by_cases hB : act = "B"
  · subst hB
    cases hcs : st.currentStart with
    | some cs =>
      have hb : ∀ x ∈ st.spans, x.stop ≤ cs := by
        intro x hx; have := h3 x hx; rwa [curBound, hcs] at this
      by_cases hbi : bilou
      · simp [spansStep, hcs, hbi] at h
      · simp [spansStep, hcs, hbi] at h
        subst h
        exact StInv_after_emit st.spans k cs k st.currentType (some k) ty h1 h2 hb
          (h4 cs hcs) (le_refl k) (fun cs' hcs' => by cases hcs'; omega)
    | none =>
      simp [spansStep, hcs] at h
      subst h
      have hb : ∀ x ∈ st.spans, x.stop ≤ k := by
        intro x hx; have := h3 x hx; rwa [curBound, hcs] at this
      exact ⟨h1, h2, fun s hs => by simpa [curBound] using hb s hs,
        fun cs' hcs' => by cases hcs'; omega⟩
  · by_cases hI : act = "I"
    · subst hI
      cases hcs : st.currentStart with
      | some cs =>
        by_cases hty : ty = st.currentType
        · simp [spansStep, hcs, hty, hB] at h
          subst h
          refine ⟨h1, h2, fun s hs => ?_, fun cs' hcs' => ?_⟩
          · have := h3 s hs; rwa [curBound, hcs] at this ⊢
          · rw [hcs] at hcs'; cases hcs'; exact lt_trans (h4 cs hcs) (by omega)
        · simp [spansStep, hcs, hty, hB] at h
      | none => simp [spansStep, hcs, hB] at h
    · by_cases hL : act = "L"
      · subst hL
        by_cases hbi : bilou
        · cases hcs : st.currentStart with
          | some cs =>
            by_cases hty : ty = st.currentType
            · simp [spansStep, hcs, hty, hB, hI, hbi] at h
              subst h
              have hb : ∀ x ∈ st.spans, x.stop ≤ cs := by
                intro x hx; have := h3 x hx; rwa [curBound, hcs] at this
              exact StInv_after_emit st.spans k cs (k + 1) st.currentType none none h1 h2 hb
                (lt_trans (h4 cs hcs) (by omega)) (le_refl (k + 1))
                (fun cs' hcs' => by cases hcs')
            · simp [spansStep, hcs, hty, hB, hI, hbi] at h
          | none => simp [spansStep, hcs, hB, hI, hbi] at h
        · simp [spansStep, hB, hI, hbi] at h
      · by_cases hO : act = "O"
        · subst hO
          cases hcs : st.currentStart with
          | some cs =>
            by_cases hbi : bilou
            · simp [spansStep, hcs, hB, hI, hL, hbi] at h
            · simp [spansStep, hcs, hB, hI, hL, hbi] at h
              subst h
              have hb : ∀ x ∈ st.spans, x.stop ≤ cs := by
                intro x hx; have := h3 x hx; rwa [curBound, hcs] at this
              exact StInv_after_emit st.spans k cs k st.currentType none none h1 h2 hb
                (h4 cs hcs) (by simp [curBound]) (fun cs' hcs' => by cases hcs')
          | none =>
            simp [spansStep, hcs, hB, hI, hL] at h
            subst h
            refine ⟨h1, h2, fun s hs => ?_, fun cs' hcs' => ?_⟩
            · have := h3 s hs
              simp only [curBound, hcs] at this ⊢
              omega
            · rw [hcs] at hcs'; cases hcs'
        · by_cases hU : act = "U"
          · subst hU
            by_cases hbi : bilou
            · cases hcs : st.currentStart with
              | some cs => simp [spansStep, hcs, hB, hI, hL, hO, hbi] at h
              | none =>
                simp [spansStep, hcs, hB, hI, hL, hO, hbi] at h
                subst h
                have hb : ∀ x ∈ st.spans, x.stop ≤ k := by
                  intro x hx; have := h3 x hx; rwa [curBound, hcs] at this
                exact StInv_after_emit st.spans k k (k + 1) ty none st.currentType h1 h2 hb
                  (by omega) (le_refl (k + 1)) (fun cs' hcs' => by cases hcs')
            · simp [spansStep, hB, hI, hL, hO, hbi] at h
          · simp [spansStep, hB, hI, hL, hO, hU] at h
            subst h
            refine ⟨h1, h2, fun s hs => ?_, fun cs' hcs' => ?_⟩
            · have := h3 s hs
              cases hcs : st.currentStart with
              | some cs => rwa [curBound, hcs] at this ⊢
              | none => simp only [curBound, hcs] at this ⊢; omega
            · exact lt_trans (h4 cs' hcs') (by omega)

theorem spansGo_inv (bilou : Bool) (labels : List (String × Option String)) :
    ∀ (k : Nat) (st st' : ExtractState), StInv st k →
      spansGo bilou k st labels = .ok st' → StInv st' (k + labels.length) := by
  induction labels with
  | nil =>
    intro k st st' hinv h
    cases h
    simpa using hinv
  | cons lab rest ih =>
    intro k st st' hinv h
    have hbind : (spansStep bilou k st lab).bind
        (fun st1 => spansGo bilou (k + 1) st1 rest) = .ok st' := h
    cases hstep : spansStep bilou k st lab with
    | error e => rw [hstep] at hbind; cases hbind
    | ok st1 =>
      rw [hstep] at hbind
      have := ih (k + 1) st1 st' (spansStep_inv bilou k st st1 lab hinv hstep) hbind
      simpa [Nat.add_assoc, Nat.add_comm 1 rest.length] using this

/-- **C9.**  Whenever `spans_from_labels` succeeds, the returned spans are
emitted left to right as pairwise disjoint half-open ranges with pairwise
distinct starts, each of positive length; in particular the list has no
duplicates, so converting it to a set discards nothing. -/
theorem spans_well_formed (labels : List (String × Option String)) (bilou : Bool)
    (spans : List TypedSpan) (h : spansFromLabels labels bilou = .ok spans) :
    (∀ s ∈ spans, s.start < s.stop)
      ∧ spans.Pairwise (fun a b => a.stop ≤ b.start)
      ∧ spans.Pairwise (fun a b => a.start ≠ b.start)
      ∧ spans.Nodup := by
  have hmain : (∀ s ∈ spans, s.start < s.stop)
      ∧ spans.Pairwise (fun a b => a.stop ≤ b.start) := by
    cases hgo : spansGo bilou 0 ⟨[], none, none⟩ labels with
    | error e =>
      unfold spansFromLabels at h
      rw [hgo] at h
      cases h
    | ok st =>
      have hinv0 : StInv ⟨[], none, none⟩ 0 := by
        refine ⟨by simp, by simp, by simp, ?_⟩
        intro cs hcs; cases hcs
      have hinv := spansGo_inv bilou labels 0 ⟨[], none, none⟩ st hinv0 hgo
      rw [Nat.zero_add] at hinv
      obtain ⟨h1, h2, h3, h4⟩ := hinv
      unfold spansFromLabels at h
      rw [hgo] at h
      have h' : (match st.currentStart with
          | some cs =>
            if bilou then Except.error SeqError.unclosedSegment
            else Except.ok (st.spans ++ [⟨cs, labels.length, st.currentType⟩])
          | none => Except.ok st.spans) = Except.ok spans := h
      cases hcs : st.currentStart with
      | some cs =>
        by_cases hbi : bilou
        · simp [hcs, hbi] at h'
        · simp [hcs, hbi] at h'
          subst h'
          have hlt : cs < labels.length := h4 cs hcs
          have hb : ∀ x ∈ st.spans, x.stop ≤ cs := by
            intro x hx; have := h3 x hx; rwa [curBound, hcs] at this
          constructor
          · intro s hs
            rcases List.mem_append.mp hs with hs | hs
            · exact h1 s hs
            · simp only [List.mem_singleton] at hs; subst hs; exact hlt
          · exact pairwise_append_span st.spans ⟨cs, labels.length, st.currentType⟩ cs h2 hb
              (le_refl cs)
      | none =>
        rw [hcs] at h'
        cases h'
        exact ⟨h1, h2⟩
  obtain ⟨h1, h2⟩ := hmain
  have hstarts : spans.Pairwise (fun a b => a.start ≠ b.start) := by
    refine h2.imp_of_mem ?_
    intro a b ha _ hab
    have := h1 a ha
    omega
  have hnd : spans.Nodup := by
    refine hstarts.imp ?_
    intro a b hab hEq
    exact hab (by rw [hEq])
  exact ⟨h1, h2, hstarts, hnd⟩

/-- Witness for C9 on a concrete BILOU sequence. -/
theorem spans_well_formed_witness :
    (∀ s ∈ [(⟨0, 2, some "PER"⟩ : TypedSpan), ⟨2, 3, some "LOC"⟩], s.start < s.stop)
      ∧ [(⟨0, 2, some "PER"⟩ : TypedSpan), ⟨2, 3, some "LOC"⟩].Pairwise
          (fun a b => a.stop ≤ b.start)
      ∧ [(⟨0, 2, some "PER"⟩ : TypedSpan), ⟨2, 3, some "LOC"⟩].Pairwise
          (fun a b => a.start ≠ b.start)
      ∧ [(⟨0, 2, some "PER"⟩ : TypedSpan), ⟨2, 3, some "LOC"⟩].Nodup :=
  spans_well_formed [("B", some "PER"), ("L", some "PER"), ("U", some "LOC")] true
    [⟨0, 2, some "PER"⟩, ⟨2, 3, some "LOC"⟩] rfl

/-! ## Dice similarity (C8) -/

/-- Dice is symmetric, including its failure case. -/
theorem diceCoef_comm (a b : TypedSpan) : diceCoef a b = diceCoef b a := by
  unfold diceCoef
  by_cases h : a.type = b.type
  · simp only [h, ne_eq, not_true_eq_false, if_false, ite_not]
    rw [show ((a.stop : ℚ) - (a.start : ℚ) + (b.stop : ℚ) - (b.start : ℚ))
          = ((b.stop : ℚ) - (b.start : ℚ) + (a.stop : ℚ) - (a.start : ℚ)) by ring,
        min_comm (a.stop : ℚ) (b.stop : ℚ), max_comm (a.start : ℚ) (b.start : ℚ)]
  · simp [h, Ne.symm h]

/-- **C8 counterexample.**  The claim states that the Dice similarity is
defined for every pair of `TypedSpan` values with no error; on the
zero-length span `(0, 0, None)` the Python code divides by
`a.end - a.start + b.end - b.start = 0` and raises `ZeroDivisionError`. -/
theorem dice_zero_length_error : diceCoef ⟨0, 0, none⟩ ⟨0, 0, none⟩ = none := by
  norm_num [diceCoef]

/-- **C8 (amended).**  For spans of positive length (`start < end`, the shape
every span produced by the program has), Dice is defined with no error,
symmetric, bounded in `[0, 1]`, equals `1` on identical spans, and equals `0`
whenever the types differ. -/
theorem dice_properties (a b : TypedSpan) (ha : a.start < a.stop) (hb : b.start < b.stop) :
    ∃ q, diceCoef a b = some q ∧ diceCoef b a = some q ∧ 0 ≤ q ∧ q ≤ 1
      ∧ (a = b → q = 1) ∧ (a.type ≠ b.type → q = 0) := by
  by_cases ht : a.type = b.type
  · have ha' : (a.start : ℚ) < (a.stop : ℚ) := by exact_mod_cast ha
    have hb' : (b.start : ℚ) < (b.stop : ℚ) := by exact_mod_cast hb
    have hd : (0 : ℚ) < (a.stop : ℚ) - (a.start : ℚ) + (b.stop : ℚ) - (b.start : ℚ) := by
      linarith
    refine ⟨2 * max (min (a.stop : ℚ) (b.stop : ℚ) - max (a.start : ℚ) (b.start : ℚ)) 0
        / ((a.stop : ℚ) - (a.start : ℚ) + (b.stop : ℚ) - (b.start : ℚ)), ?_, ?_, ?_, ?_, ?_, ?_⟩
    · simp [diceCoef, ht, hd.ne']
    · rw [← diceCoef_comm]
      simp [diceCoef, ht, hd.ne']
    · apply div_nonneg _ hd.le
      have := le_max_right (min (a.stop : ℚ) (b.stop : ℚ) - max (a.start : ℚ) (b.start : ℚ)) 0
      linarith
    · rw [div_le_one hd]
      rcases le_or_lt (min (a.stop : ℚ) (b.stop : ℚ) - max (a.start : ℚ) (b.start : ℚ)) 0
        with h0 | h0
      · rw [max_eq_right h0]; linarith
      · rw [max_eq_left h0.le]
        have m1 := min_le_left (a.stop : ℚ) (b.stop : ℚ)
        have m2 := min_le_right (a.stop : ℚ) (b.stop : ℚ)
        have m3 := le_max_left (a.start : ℚ) (b.start : ℚ)
        have m4 := le_max_right (a.start : ℚ) (b.start : ℚ)
        linarith
    · rintro rfl
      rw [min_self, max_self, max_eq_left (by linarith)]
      field_simp
      ring
    · intro h; exact absurd ht h
  · refine ⟨0, by simp [diceCoef, ht], by simp [diceCoef, Ne.symm ht], le_refl 0,
      by norm_num, ?_, fun _ => rfl⟩
    rintro rfl
    exact absurd rfl ht

/-- Witness for the amended C8 at a concrete pair of overlapping spans. -/
theorem dice_properties_witness :
    ∃ q, diceCoef ⟨0, 2, some "PER"⟩ ⟨1, 3, some "PER"⟩ = some q
      ∧ diceCoef ⟨1, 3, some "PER"⟩ ⟨0, 2, some "PER"⟩ = some q ∧ 0 ≤ q ∧ q ≤ 1
      ∧ ((⟨0, 2, some "PER"⟩ : TypedSpan) = ⟨1, 3, some "PER"⟩ → q = 1)
      ∧ ((⟨0, 2, some "PER"⟩ : TypedSpan).type ≠ (⟨1, 3, some "PER"⟩ : TypedSpan).type → q = 0) :=
  dice_properties ⟨0, 2, some "PER"⟩ ⟨1, 3, some "PER"⟩ (by decide) (by decide)

/-! ## Bounds on the matched score (C7) -/

theorem foldr_max_le {l : List ℚ} {c : ℚ} (h0 : 0 ≤ c) (h : ∀ x ∈ l, x ≤ c) :
    l.foldr max 0 ≤ c := by
  induction l with
  | nil => simpa using h0
  | cons x l ih =>
    simp only [List.foldr_cons]
    exact max_le (h x (by simp)) (ih (fun y hy => h y (List.mem_cons_of_mem _ hy)))

theorem le_foldr_max {l : List ℚ} {x : ℚ} (hx : x ∈ l) : x ≤ l.foldr max 0 := by
  induction l with
  | nil => cases hx
  | cons y l ih =>
    simp only [List.foldr_cons]
    rcases List.mem_cons.mp hx with rfl | hx
    · exact le_max_left _ _
    · exact le_trans (ih hx) (le_max_right _ _)

theorem sum_self_scores (score : TypedSpan → TypedSpan → ℚ) (hself : ∀ a, score a a = 1)
    (l : List TypedSpan) : (l.map (fun s => score s s)).sum = l.length := by
  induction l with
  | nil => simp
  | cons a l ih => simp [hself, ih]; ring

/-- For a similarity bounded above by `1`, a full matching of `as` into any
list scores at most `as.length`. -/
theorem assignAll_le_length (f : TypedSpan → TypedSpan → ℚ) (hf : ∀ a b, f a b ≤ 1) :
    ∀ as bs : List TypedSpan, assignAll f as bs ≤ as.length := by
  intro as
  induction as with
  | nil => intro bs; simp [assignAll]
  | cons a as ih =>
    intro bs
    show ((picks bs).map (fun p => f a p.1 + assignAll f as p.2)).foldr max 0 ≤ _
    apply foldr_max_le
    · positivity
    · intro x hx
      obtain ⟨p, _, rfl⟩ := List.mem_map.mp hx
      have h1 := hf a p.1
      have h2 := ih p.2
      simp only [List.length_cons]
      push_cast
      linarith

/-- A similarity bounded above by `1` whose self-similarity is `0`; it
refutes C7 as stated. -/
def selfAverseSim (a b : TypedSpan) : ℚ :=
  if a = b then 0 else 1

/-- **C7 counterexample.**  The claim quantifies over every similarity
bounded by `1`.  For `selfAverseSim` (bounded by `1`), gold `{(0,1)}` and
system `{(1,2)}`, `aligned_score` returns matched score `1` with both
self-similarity sums `0`, and `1 ≤ min 0 0` fails. -/
theorem matched_exceeds_self_sums :
    alignedScore [⟨0, 1, none⟩] [⟨1, 2, none⟩] selfAverseSim = some (1, 0, 0)
      ∧ (∀ a b, selfAverseSim a b ≤ 1) ∧ ¬ ((1 : ℚ) ≤ min (0 : ℚ) (0 : ℚ)) := by
  refine ⟨?_, ?_, by norm_num⟩
  · rw [alignedScore_cons]
    norm_num [optScore, assignAll, picks, selfAverseSim]
  · intro a b; unfold selfAverseSim; split <;> norm_num

/-- **C7 (amended).**  For every similarity bounded above by `1` whose
self-similarity is `1` (as holds for both registered similarities), whenever
`aligned_score` returns `(m, p, t)` the matched score `m` is at most the
minimum of the gold-side self-sum `t` and the system-side self-sum `p`. -/
theorem matched_le_min_self_sums (score : TypedSpan → TypedSpan → ℚ)
    (hle : ∀ a b, score a b ≤ 1) (hself : ∀ a, score a a = 1)
    (gold syst : List TypedSpan) (m p t : ℚ)
    (h : alignedScore gold syst score = some (m, p, t)) : m ≤ min t p := by
  cases syst with
  | nil => rw [alignedScore_syst_nil] at h; cases h
  | cons s0 rest =>
    rw [alignedScore_cons, Option.some.injEq, Prod.mk.injEq, Prod.mk.injEq] at h
    obtain ⟨rfl, rfl, rfl⟩ := h
    rw [sum_self_scores score hself, sum_self_scores score hself]
    unfold optScore
    split
    case isTrue hlen =>
      refine le_min ?_ ?_
      · calc assignAll (fun s g => score g s) (s0 :: rest) gold
            ≤ ((s0 :: rest).length : ℚ) := assignAll_le_length _ (fun a b => hle b a) _ _
          _ ≤ (gold.length : ℚ) := by exact_mod_cast hlen
      · exact assignAll_le_length _ (fun a b => hle b a) _ _
    case isFalse hlen =>
      refine le_min (assignAll_le_length _ hle _ _) ?_
      calc assignAll (fun g s => score g s) gold (s0 :: rest)
          ≤ (gold.length : ℚ) := assignAll_le_length _ hle _ _
        _ ≤ (((s0 :: rest).length : Nat) : ℚ) := by
            have : gold.length ≤ (s0 :: rest).length := le_of_not_le hlen
            exact_mod_cast this

/-- Witness for the amended C7 at a concrete input. -/
theorem matched_le_min_self_sums_witness :
    alignedScore [⟨0, 1, some "A"⟩] [⟨0, 1, some "A"⟩] exactCoef = some (1, 1, 1)
      ∧ (1 : ℚ) ≤ min (1 : ℚ) (1 : ℚ) := by
  have h : alignedScore [⟨0, 1, some "A"⟩] [⟨0, 1, some "A"⟩] exactCoef = some (1, 1, 1) := by
    rw [alignedScore_cons]
    norm_num [optScore, assignAll, picks, exactCoef]
  exact ⟨h, matched_le_min_self_sums exactCoef exactCoef_le_one exactCoef_self
    [⟨0, 1, some "A"⟩] [⟨0, 1, some "A"⟩] 1 1 1 h⟩

/-! ## Exact similarity recovers the set intersection (C2) -/

/-- The number of elements of `as` lying in `bs` (as a score). -/
def countMem : List TypedSpan → List TypedSpan → ℚ
  | [], _ => 0
  | a :: as, bs => (if a ∈ bs then 1 else 0) + countMem as bs

theorem countMem_nonneg (as bs : List TypedSpan) : 0 ≤ countMem as bs := by
  induction as with
  | nil => simp [countMem]
  | cons a as ih => simp only [countMem]; split <;> linarith

theorem countMem_sublist (as : List TypedSpan) {bs bs' : List TypedSpan} (h : List.Sublist bs' bs) :
    countMem as bs' ≤ countMem as bs := by
  induction as with
  | nil => simp [countMem]
  | cons a as ih =>
    simp only [countMem]
    by_cases ha : a ∈ bs'
    · rw [if_pos ha, if_pos (h.subset ha)]; linarith
    · rw [if_neg ha]; split <;> linarith

theorem countMem_congr (as : List TypedSpan) {bs bs' : List TypedSpan}
    (h : ∀ x ∈ as, x ∈ bs ↔ x ∈ bs') : countMem as bs = countMem as bs' := by
  induction as with
  | nil => simp [countMem]
  | cons a as ih =>
    simp only [countMem]
    rw [ih (fun x hx => h x (List.mem_cons_of_mem _ hx))]
    by_cases ha : a ∈ bs
    · rw [if_pos ha, if_pos ((h a (List.mem_cons_self _ _)).mp ha)]
    · rw [if_neg ha, if_neg (fun hb => ha ((h a (List.mem_cons_self _ _)).mpr hb))]

/-- For a duplicate-free list, `countMem` is the cardinality of the set
intersection. -/
theorem countMem_eq_card (as bs : List TypedSpan) (ha : as.Nodup) :
    countMem as bs = ((as.toFinset ∩ bs.toFinset).card : ℚ) := by
  induction as with
  | nil => simp [countMem]
  | cons a as ih =>
    obtain ⟨hna, hnd⟩ := List.nodup_cons.mp ha
    rw [countMem, ih hnd]
    have hins : (a :: as).toFinset = insert a as.toFinset := by simp
    by_cases hab : a ∈ bs
    · rw [if_pos hab, hins, Finset.insert_inter_of_mem (by simpa using hab),
        Finset.card_insert_of_not_mem (fun hmem => hna (by
          simpa using (Finset.mem_inter.mp hmem).1))]
      push_cast; ring
    · rw [if_neg hab, hins, Finset.insert_inter_of_not_mem (by simpa using hab)]
      ring

theorem countMem_comm (as bs : List TypedSpan) (ha : as.Nodup) (hb : bs.Nodup) :
    countMem as bs = countMem bs as := by
  rw [countMem_eq_card as bs ha, countMem_eq_card bs as hb, Finset.inter_comm]

theorem picks_mem_spec (bs : List TypedSpan) :
    ∀ p ∈ picks bs, p.1 ∈ bs ∧ List.Sublist p.2 bs ∧ p.2.length + 1 = bs.length := by
  induction bs with
  | nil => intro p hp; cases hp
  | cons b rest ih =>
    intro p hp
    rcases List.mem_cons.mp hp with rfl | hp
    · exact ⟨List.mem_cons_self _ _, List.sublist_cons_self b rest, by simp⟩
    · obtain ⟨q, hq, rfl⟩ := List.mem_map.mp hp
      obtain ⟨hq1, hq2, hq3⟩ := ih q hq
      exact ⟨List.mem_cons_of_mem _ hq1, hq2.cons₂ b, by simp [hq3]⟩

theorem picks_of_mem (bs : List TypedSpan) (b : TypedSpan) (hb : b ∈ bs) :
    ∃ rest, (b, rest) ∈ picks bs
      ∧ (∀ x, x ∈ bs → x ≠ b → x ∈ rest)
      ∧ (bs.Nodup → rest.Nodup ∧ b ∉ rest) := by
  induction bs with
  | nil => cases hb
  | cons c rest ih =>
    rcases List.mem_cons.mp hb with rfl | hb
    · refine ⟨rest, List.mem_cons_self _ _, ?_, ?_⟩
      · intro x hx hxb
        rcases List.mem_cons.mp hx with rfl | hx
        · exact absurd rfl hxb
        · exact hx
      · intro hnd
        exact ⟨(List.nodup_cons.mp hnd).2, (List.nodup_cons.mp hnd).1⟩
    · obtain ⟨r, hr, hmem, hnd⟩ := ih hb
      refine ⟨c :: r, List.mem_cons_of_mem _ (List.mem_map_of_mem _ hr), ?_, ?_⟩
      · intro x hx hxb
        rcases List.mem_cons.mp hx with rfl | hx
        · exact List.mem_cons_self _ _
        · exact List.mem_cons_of_mem _ (hmem x hx hxb)
      · intro hcnd
        obtain ⟨hcni, hrnd⟩ := List.nodup_cons.mp hcnd
        obtain ⟨hrnd2, hbr⟩ := hnd hrnd
        have hsub := (picks_mem_spec rest (b, r) hr).2.1.subset
        refine ⟨List.nodup_cons.mpr ⟨fun hc => hcni (hsub hc), hrnd2⟩, ?_⟩
        intro hbc
        rcases List.mem_cons.mp hbc with hbc | hbc
        · exact hcni (hbc ▸ hb)
        · exact hbr hbc

/-- Upper bound: under 0/1 exact benefits, no full matching scores more than
the number of elements shared with the other side. -/
theorem assignAll_exact_le (f : TypedSpan → TypedSpan → ℚ)
    (hf : ∀ a b, f a b = if a = b then (1 : ℚ) else 0) :
    ∀ as bs : List TypedSpan, assignAll f as bs ≤ countMem as bs := by
  intro as
  induction as with
  | nil => intro bs; simp [assignAll, countMem]
  | cons a as ih =>
    intro bs
    show ((picks bs).map (fun p => f a p.1 + assignAll f as p.2)).foldr max 0 ≤ _
    apply foldr_max_le
    · have h0 : (0 : ℚ) ≤ if a ∈ bs then (1 : ℚ) else 0 := by split <;> norm_num
      have := countMem_nonneg as bs
      simp only [countMem]
      linarith
    · intro x hx
      obtain ⟨p, hp, rfl⟩ := List.mem_map.mp hx
      obtain ⟨hp1, hp2, _⟩ := picks_mem_spec bs p hp
      have h1 : f a p.1 ≤ if a ∈ bs then (1 : ℚ) else 0 := by
        rw [hf]
        by_cases hab : a = p.1
        · rw [if_pos hab, if_pos (hab ▸ hp1)]
        · rw [if_neg hab]; split <;> norm_num
      have h2 := le_trans (ih p.2) (countMem_sublist as hp2)
      simp only [countMem]
      linarith

/-- Lower bound: under 0/1 exact benefits, the optimal full matching of the
(not larger) list `as` into `bs` scores at least the intersection size. -/
theorem assignAll_exact_ge (f : TypedSpan → TypedSpan → ℚ)
    (hf : ∀ a b, f a b = if a = b then (1 : ℚ) else 0) :
    ∀ as bs : List TypedSpan, as.Nodup → bs.Nodup → as.length ≤ bs.length →
      countMem as bs ≤ assignAll f as bs := by
  intro as
  induction as with
  | nil => intro bs _ _ _; simp [assignAll, countMem]
  | cons a as ih =>
    intro bs hnda hndb hlen
    obtain ⟨hna, hnda'⟩ := List.nodup_cons.mp hnda
    by_cases hab : a ∈ bs
    · obtain ⟨r, hr, hmem, hnd⟩ := picks_of_mem bs a hab
      obtain ⟨hrnd, har⟩ := hnd hndb
      obtain ⟨_, hrsub, hrlen⟩ := picks_mem_spec bs (a, r) hr
      have hcnt : countMem as r = countMem as bs := by
        apply countMem_congr
        intro x hx
        constructor
        · exact fun h => hrsub.subset h
        · intro h
          exact hmem x h (fun hxa => hna (hxa ▸ hx))
      have hih : countMem as r ≤ assignAll f as r :=
        ih r hnda' hrnd (by
          have hr2 : r.length + 1 = bs.length := hrlen
          simp at hlen
          omega)
      have hfa : f a a = 1 := by rw [hf, if_pos rfl]
      have hval : f a a + assignAll f as r
          ≤ ((picks bs).map (fun p => f a p.1 + assignAll f as p.2)).foldr max 0 :=
        le_foldr_max (List.mem_map_of_mem _ hr)
      show countMem (a :: as) bs ≤ ((picks bs).map _).foldr max 0
      simp only [countMem, if_pos hab]
      rw [← hcnt]
      linarith
    · -- a is matched to some element of bs that lies outside as
      have hbs_ne : bs ≠ [] := by
        intro hnil
        rw [hnil] at hlen
        simp at hlen
      have hexists : ∃ b ∈ bs, b ∉ as := by
        by_contra hall
        push_neg at hall
        have hsub : bs ⊆ as := fun x hx => hall x hx
        have := (List.subperm_of_subset hndb hsub).length_le
        simp at hlen
        omega
      obtain ⟨b, hbbs, hbas⟩ := hexists
      obtain ⟨r, hr, hmem, hnd⟩ := picks_of_mem bs b hbbs
      obtain ⟨hrnd, _⟩ := hnd hndb
      obtain ⟨_, hrsub, hrlen⟩ := picks_mem_spec bs (b, r) hr
      have hcnt : countMem as r = countMem as bs := by
        apply countMem_congr
        intro x hx
        constructor
        · exact fun h => hrsub.subset h
        · intro h
          exact hmem x h (fun hxb => hbas (hxb ▸ hx))
      have hih : countMem as r ≤ assignAll f as r :=
        ih r hnda' hrnd (by
          have hr2 : r.length + 1 = bs.length := hrlen
          simp at hlen
          omega)
      have hfa : (0 : ℚ) ≤ f a b := by
        rw [hf]; split <;> norm_num
      have hval : f a b + assignAll f as r
          ≤ ((picks bs).map (fun p => f a p.1 + assignAll f as p.2)).foldr max 0 :=
        le_foldr_max (List.mem_map_of_mem _ hr)
      show countMem (a :: as) bs ≤ ((picks bs).map _).foldr max 0
      simp only [countMem, if_neg hab]
      rw [← hcnt] at *
      linarith

/-- Under exact 0/1 similarity the optimal assignment value is exactly the
size of the intersection of the two (duplicate-free) sides. -/
theorem optScore_exact (gold syst : List TypedSpan) (hg : gold.Nodup) (hs : syst.Nodup) :
    optScore exactCoef gold syst = countMem syst gold := by
  have hf1 : ∀ a b : TypedSpan, (fun s g => exactCoef g s) a b = if a = b then (1 : ℚ) else 0 := by
    intro a b
    simp only [exactCoef]
    by_cases h : a = b
    · rw [if_pos h.symm, if_pos h]
    · rw [if_neg (fun hh => h hh.symm), if_neg h]
  have hf2 : ∀ a b : TypedSpan, (fun g s => exactCoef g s) a b = if a = b then (1 : ℚ) else 0 := by
    intro a b; rfl
  unfold optScore
  split
  case isTrue hlen =>
    exact le_antisymm (assignAll_exact_le _ hf1 syst gold)
      (assignAll_exact_ge _ hf1 syst gold hs hg hlen)
  case isFalse hlen =>
    rw [countMem_comm syst gold hs hg]
    exact le_antisymm (assignAll_exact_le _ hf2 gold syst)
      (assignAll_exact_ge _ hf2 gold syst hg hs (le_of_not_le hlen))

/-- **C2 counterexample.**  The claim quantifies over all finite span sets
`G` and `S`; with `G = {(0,1,PER)}` and `S = {}` the intersection is empty,
but `aligned_score` raises (the empty benefit matrix is one-dimensional)
instead of returning a triple with matched score `0`. -/
theorem exact_matched_empty_syst_error :
    alignedScore [⟨0, 1, some "PER"⟩] [] exactCoef = none
      ∧ countMem ([] : List TypedSpan) [⟨0, 1, some "PER"⟩] = 0 :=
  ⟨rfl, rfl⟩

/-- **C2 (amended).**  For duplicate-free span lists with a non-empty system
side, `aligned_score` under exact similarity returns matched score
`|G ∩ S|` (together with the two self-sums, which are the list lengths). -/
theorem exact_matched_counts_intersection (gold syst : List TypedSpan)
    (hg : gold.Nodup) (hs : syst.Nodup) (hne : syst ≠ []) :
    alignedScore gold syst exactCoef
        = some (countMem syst gold, (syst.length : ℚ), (gold.length : ℚ))
      ∧ countMem syst gold = ((gold.toFinset ∩ syst.toFinset).card : ℚ) := by
  constructor
  · obtain ⟨s0, rest, rfl⟩ := List.exists_cons_of_ne_nil hne
    rw [alignedScore_cons, sum_self_scores exactCoef exactCoef_self,
      sum_self_scores exactCoef exactCoef_self,
      optScore_exact gold (s0 :: rest) hg hs]
  · rw [countMem_eq_card syst gold hs, Finset.inter_comm]

/-- Witness for the amended C2 at a concrete input: one shared span out of
two on each side. -/
theorem exact_matched_counts_intersection_witness :
    alignedScore [⟨0, 1, some "A"⟩, ⟨1, 2, some "B"⟩]
        [⟨1, 2, some "B"⟩, ⟨5, 6, some "C"⟩] exactCoef = some (1, 2, 2) := by
  have h := (exact_matched_counts_intersection [⟨0, 1, some "A"⟩, ⟨1, 2, some "B"⟩]
    [⟨1, 2, some "B"⟩, ⟨5, 6, some "C"⟩] (by decide) (by decide) (by decide)).1
  have hc : countMem [⟨1, 2, some "B"⟩, ⟨5, 6, some "C"⟩]
      [⟨0, 1, some "A"⟩, ⟨1, 2, some "B"⟩] = 1 := by
    norm_num [countMem]
  rw [hc] at h
  simpa using h

/-- Witness for C10 at a concrete input. -/
theorem aligned_score_empty_sides_witness :
    alignedScore [⟨0, 1, some "A"⟩] [] exactCoef = none
      ∧ alignedScore [] [⟨0, 1, some "A"⟩] exactCoef = some (0, 1, 0) := by
  constructor
  · exact (aligned_score_empty_sides exactCoef).1 [⟨0, 1, some "A"⟩]
  · have h := (aligned_score_empty_sides exactCoef).2 [⟨0, 1, some "A"⟩] (by decide)
    simpa [exactCoef] using h

/-! ## Round-trip re-encoding (C5)

The repository has no encoder; the re-encoding is modelled from the spec's
scheme definitions (glossary and section 4.2): under BILOU a single-token
span is `U` and a longer one is `B I … L`; under BIO a span is `B I …`;
positions outside every span are `O`. -/

/-- Modelled from the spec: BILOU re-encoding of one span. -/
def encodeSpanBILOU (s : TypedSpan) : List (String × Option String) :=
  if s.stop - s.start = 1 then [("U", s.type)]
  else ("B", s.type) :: (List.replicate (s.stop - s.start - 2) ("I", s.type) ++ [("L", s.type)])

/-- Modelled from the spec: BIO re-encoding of one span. -/
def encodeSpanBio (s : TypedSpan) : List (String × Option String) :=
  ("B", s.type) :: List.replicate (s.stop - s.start - 1) ("I", s.type)

/-- Modelled from the spec: BILOU re-encoding of a start-sorted disjoint span
list over token positions `[pos, n)`. -/
def encodeBILOU : List TypedSpan → Nat → Nat → List (String × Option String)
  | [], pos, n => List.replicate (n - pos) ("O", none)
  | s :: rest, pos, n =>
    List.replicate (s.start - pos) ("O", none) ++ encodeSpanBILOU s
      ++ encodeBILOU rest s.stop n

/-- Modelled from the spec: BIO re-encoding of a start-sorted disjoint span
list over token positions `[pos, n)`. -/
def encodeBio : List TypedSpan → Nat → Nat → List (String × Option String)
  | [], pos, n => List.replicate (n - pos) ("O", none)
  | s :: rest, pos, n =>
    List.replicate (s.start - pos) ("O", none) ++ encodeSpanBio s
      ++ encodeBio rest s.stop n

/-- A well-formed span set for a sequence of `n` tokens, presented as its
start-sorted list: spans are pairwise disjoint, each non-empty, and within
bounds.  (Every finite set of disjoint well-formed spans has exactly one such
presentation.) -/
def ChainFrom : Nat → Nat → List TypedSpan → Prop
  | pos, n, [] => pos ≤ n
  | pos, n, s :: rest => pos ≤ s.start ∧ s.start < s.stop ∧ ChainFrom s.stop n rest

theorem chainFrom_le (n : Nat) :
    ∀ (ss : List TypedSpan) (pos : Nat), ChainFrom pos n ss → pos ≤ n := by
  intro ss
  induction ss with
  | nil => intro pos h; exact h
  | cons s rest ih =>
    intro pos h
    obtain ⟨h1, h2, h3⟩ := h
    have := ih s.stop h3
    omega

theorem encodeSpanBio_length (s : TypedSpan) :
    (encodeSpanBio s).length = s.stop - s.start - 1 + 1 := by
  simp [encodeSpanBio]

theorem encodeBio_length (n : Nat) :
    ∀ (ss : List TypedSpan) (pos : Nat), ChainFrom pos n ss →
      (encodeBio ss pos n).length = n - pos := by
  intro ss
  induction ss with
  | nil => intro pos h; simp [encodeBio]
  | cons s rest ih =>
    intro pos h
    obtain ⟨h1, h2, h3⟩ := h
    have hrest := ih s.stop h3
    have hstop := chainFrom_le n rest s.stop h3
    simp [encodeBio, encodeSpanBio_length, hrest]
    omega

/-- One-step unfolding of the loop. -/
theorem spansGo_cons (bilou : Bool) (i : Nat) (st : ExtractState)
    (lab : String × Option String) (rest : List (String × Option String)) :
    spansGo bilou i st (lab :: rest)
      = (spansStep bilou i st lab).bind (fun st1 => spansGo bilou (i + 1) st1 rest) := rfl

theorem ok_bind {α β : Type} (a : α) (f : α → Except SeqError β) :
    (Except.ok a : Except SeqError α).bind f = f a := rfl

/-- A run of `O` labels from a closed state is a no-op that advances the
index. -/
theorem spansGo_O_run (bilou : Bool) (k : Nat) :
    ∀ (i : Nat) (acc : List TypedSpan) (rest : List (String × Option String)),
      spansGo bilou i ⟨acc, none, none⟩ (List.replicate k ("O", none) ++ rest)
        = spansGo bilou (i + k) ⟨acc, none, none⟩ rest := by
  induction k with
  | zero => intro i acc rest; simp
  | succ k ih =>
    intro i acc rest
    rw [List.replicate_succ, List.cons_append, spansGo_cons]
    have hstep : spansStep bilou i ⟨acc, none, none⟩ ("O", none) = .ok ⟨acc, none, none⟩ := rfl
    rw [hstep]
    simp only [ok_bind]
    rw [ih]
    have hidx : i + 1 + k = i + (k + 1) := by omega
    rw [hidx]

/-- Under BIO, a non-empty run of `O` labels from an open state closes the
open span at the first `O` and then advances. -/
theorem spansGo_O_run_open (k : Nat) (hk : 0 < k) (i cs : Nat) (acc : List TypedSpan)
    (curT : Option String) (rest : List (String × Option String)) :
    spansGo false i ⟨acc, some cs, curT⟩ (List.replicate k ("O", none) ++ rest)
      = spansGo false (i + k) ⟨acc ++ [⟨cs, i, curT⟩], none, none⟩ rest := by
  obtain ⟨m, rfl⟩ : ∃ m, k = m + 1 := ⟨k - 1, by omega⟩
  rw [List.replicate_succ, List.cons_append, spansGo_cons]
  have hstep : spansStep false i ⟨acc, some cs, curT⟩ ("O", none)
      = .ok ⟨acc ++ [⟨cs, i, curT⟩], none, none⟩ := rfl
  rw [hstep]
  simp only [ok_bind]
  rw [spansGo_O_run]
  have hidx : i + 1 + m = i + (m + 1) := by omega
  rw [hidx]

/-- A run of `I` labels with the open span's type is a no-op that advances
the index. -/
theorem spansGo_I_run (bilou : Bool) (k : Nat) (ty : Option String) :
    ∀ (i cs : Nat) (acc : List TypedSpan) (rest : List (String × Option String)),
      spansGo bilou i ⟨acc, some cs, ty⟩ (List.replicate k ("I", ty) ++ rest)
        = spansGo bilou (i + k) ⟨acc, some cs, ty⟩ rest := by
  induction k with
  | zero => intro i cs acc rest; simp
  | succ k ih =>
    intro i cs acc rest
    rw [List.replicate_succ, List.cons_append, spansGo_cons]
    have hstep : spansStep bilou i ⟨acc, some cs, ty⟩ ("I", ty) = .ok ⟨acc, some cs, ty⟩ := by
      simp [spansStep]
    rw [hstep]
    simp only [ok_bind]
    rw [ih]
    have hidx : i + 1 + k = i + (k + 1) := by omega
    rw [hidx]

/-- Processing the BILOU encoding of one span from a closed state emits
exactly that span and returns to a closed state. -/
theorem spansGo_span_BILOU (s : TypedSpan) (h2 : s.start < s.stop) (acc : List TypedSpan)
    (rest : List (String × Option String)) :
    spansGo true s.start ⟨acc, none, none⟩ (encodeSpanBILOU s ++ rest)
      = spansGo true s.stop ⟨acc ++ [s], none, none⟩ rest := by
  unfold encodeSpanBILOU
  by_cases h1 : s.stop - s.start = 1
  · rw [if_pos h1, List.cons_append, List.nil_append, spansGo_cons]
    have hstep : spansStep true s.start ⟨acc, none, none⟩ ("U", s.type)
        = .ok ⟨acc ++ [⟨s.start, s.start + 1, s.type⟩], none, none⟩ := rfl
    rw [hstep]
    simp only [ok_bind]
    have hs : s.start + 1 = s.stop := by omega
    rw [hs]
  · rw [if_neg h1, List.cons_append, spansGo_cons]
    have hstep : spansStep true s.start ⟨acc, none, none⟩ ("B", s.type)
        = .ok ⟨acc, some s.start, s.type⟩ := rfl
    rw [hstep]
    simp only [ok_bind]
    rw [List.append_assoc, spansGo_I_run, List.cons_append, List.nil_append, spansGo_cons]
    have hstepL : spansStep true (s.start + 1 + (s.stop - s.start - 2))
        ⟨acc, some s.start, s.type⟩ ("L", s.type)
        = .ok ⟨acc ++ [⟨s.start, s.start + 1 + (s.stop - s.start - 2) + 1, s.type⟩],
            none, none⟩ := by
      simp [spansStep]
    rw [hstepL]
    simp only [ok_bind]
    have hidx : s.start + 1 + (s.stop - s.start - 2) + 1 = s.stop := by omega
    rw [hidx]

/-- Processing the BIO encoding of one span opens it (closing first any
pending span at the span's start); it is closed later by the next `O`, the
next `B`, or the end of sequence. -/
theorem spansGo_span_Bio (s : TypedSpan) (h2 : s.start < s.stop) (acc : List TypedSpan)
    (curS : Option Nat) (curT : Option String)
    (rest : List (String × Option String)) :
    spansGo false s.start ⟨acc, curS, curT⟩ (encodeSpanBio s ++ rest)
      = spansGo false s.stop
          ⟨(match curS with
            | some cs => acc ++ [⟨cs, s.start, curT⟩]
            | none => acc), some s.start, s.type⟩ rest := by
  unfold encodeSpanBio
  rw [List.cons_append, spansGo_cons]
  cases curS with
  | none =>
    have hstep : spansStep false s.start ⟨acc, none, curT⟩ ("B", s.type)
        = .ok ⟨acc, some s.start, s.type⟩ := rfl
    rw [hstep]
    simp only [ok_bind]
    rw [spansGo_I_run]
    have hidx : s.start + 1 + (s.stop - s.start - 1) = s.stop := by omega
    rw [hidx]
  | some cs =>
    have hstep : spansStep false s.start ⟨acc, some cs, curT⟩ ("B", s.type)
        = .ok ⟨acc ++ [⟨cs, s.start, curT⟩], some s.start, s.type⟩ := rfl
    rw [hstep]
    simp only [ok_bind]
    rw [spansGo_I_run]
    have hidx : s.start + 1 + (s.stop - s.start - 1) = s.stop := by omega
    rw [hidx]

/-- Running the whole BILOU encoding from a closed state appends exactly the
encoded spans and ends closed. -/
theorem encodeBILOU_go (n : Nat) :
    ∀ (ss : List TypedSpan) (pos : Nat) (acc : List TypedSpan), ChainFrom pos n ss →
      spansGo true pos ⟨acc, none, none⟩ (encodeBILOU ss pos n)
        = .ok ⟨acc ++ ss, none, none⟩ := by
  intro ss
  induction ss with
  | nil =>
    intro pos acc hch
    show spansGo true pos ⟨acc, none, none⟩ (List.replicate (n - pos) ("O", none)) = _
    rw [← List.append_nil (List.replicate (n - pos) (("O", none) : String × Option String)),
      spansGo_O_run]
    show Except.ok (⟨acc, none, none⟩ : ExtractState) = _
    simp
  | cons s rest ih =>
    intro pos acc hch
    obtain ⟨h1, h2, h3⟩ := hch
    show spansGo true pos ⟨acc, none, none⟩
        (List.replicate (s.start - pos) ("O", none) ++ encodeSpanBILOU s
          ++ encodeBILOU rest s.stop n) = _
    rw [List.append_assoc, spansGo_O_run]
    have hidx : pos + (s.start - pos) = s.start := by omega
    rw [hidx, spansGo_span_BILOU s h2, ih s.stop (acc ++ [s]) h3]
    simp

/-- The per-state final value of the BIO run: the pending open span (if any)
closes at position `pos`. -/
def closeAt (acc : List TypedSpan) (curS : Option Nat) (curT : Option String)
    (pos : Nat) : List TypedSpan :=
  match curS with
  | some cs => acc ++ [⟨cs, pos, curT⟩]
  | none => acc

/-- Running the whole BIO encoding: the final state, once the end-of-sequence
close at `n` is applied, holds exactly the entry state's pending span
(closing at the entry position) followed by the encoded spans.  A closed
entry state carries no type, as in every state the loop produces. -/
theorem encodeBio_go (n : Nat) :
    ∀ (ss : List TypedSpan) (pos : Nat) (acc : List TypedSpan) (curS : Option Nat)
      (curT : Option String), (curS = none → curT = none) → ChainFrom pos n ss →
      ∃ st : ExtractState,
        spansGo false pos ⟨acc, curS, curT⟩ (encodeBio ss pos n) = .ok st
          ∧ (match st.currentStart with
              | some cs => st.spans ++ [⟨cs, n, st.currentType⟩]
              | none => st.spans) = closeAt acc curS curT pos ++ ss := by
  intro ss
  induction ss with
  | nil =>
    intro pos acc curS curT hct hch
    have hpn : pos ≤ n := hch
    cases curS with
    | none =>
      have hT : curT = none := hct rfl
      subst hT
      refine ⟨⟨acc, none, none⟩, ?_, by simp [closeAt]⟩
      show spansGo false pos ⟨acc, none, none⟩ (List.replicate (n - pos) ("O", none)) = _
      rw [← List.append_nil (List.replicate (n - pos) (("O", none) : String × Option String)),
        spansGo_O_run]
      rfl
    | some cs =>
      by_cases hpos : pos = n
      · subst hpos
        refine ⟨⟨acc, some cs, curT⟩, ?_, by simp [closeAt]⟩
        show spansGo false pos ⟨acc, some cs, curT⟩
            (List.replicate (pos - pos) ("O", none)) = _
        rw [Nat.sub_self]
        rfl
      · refine ⟨⟨acc ++ [⟨cs, pos, curT⟩], none, none⟩, ?_, by simp [closeAt]⟩
        show spansGo false pos ⟨acc, some cs, curT⟩
            (List.replicate (n - pos) ("O", none)) = _
        rw [← List.append_nil (List.replicate (n - pos) (("O", none) : String × Option String)),
          spansGo_O_run_open (n - pos) (by omega)]
        rfl
  | cons s rest ih =>
    intro pos acc curS curT hct hch
    obtain ⟨h1, h2, h3⟩ := hch
    cases curS with
    | none =>
      have hT : curT = none := hct rfl
      subst hT
      obtain ⟨st, hst, hclose⟩ := ih s.stop acc (some s.start) s.type (by simp) h3
      refine ⟨st, ?_, ?_⟩
      · show spansGo false pos ⟨acc, none, none⟩
            (List.replicate (s.start - pos) ("O", none) ++ encodeSpanBio s
              ++ encodeBio rest s.stop n) = .ok st
        rw [List.append_assoc, spansGo_O_run]
        have hidx : pos + (s.start - pos) = s.start := by omega
        rw [hidx, spansGo_span_Bio s h2]
        exact hst
      · rw [hclose]
        simp [closeAt]
    | some cs =>
      by_cases hgap : pos = s.start
      · subst hgap
        obtain ⟨st, hst, hclose⟩ := ih s.stop (acc ++ [⟨cs, s.start, curT⟩]) (some s.start)
          s.type (by simp) h3
        refine ⟨st, ?_, ?_⟩
        · show spansGo false s.start ⟨acc, some cs, curT⟩
              (List.replicate (s.start - s.start) ("O", none) ++ encodeSpanBio s
                ++ encodeBio rest s.stop n) = .ok st
          rw [Nat.sub_self, List.append_assoc]
          show spansGo false s.start ⟨acc, some cs, curT⟩
              (encodeSpanBio s ++ encodeBio rest s.stop n) = .ok st
          rw [spansGo_span_Bio s h2]
          exact hst
        · rw [hclose]
          simp [closeAt]
      · obtain ⟨st, hst, hclose⟩ := ih s.stop (acc ++ [⟨cs, pos, curT⟩]) (some s.start) s.type
          (by simp) h3
        refine ⟨st, ?_, ?_⟩
        · show spansGo false pos ⟨acc, some cs, curT⟩
              (List.replicate (s.start - pos) ("O", none) ++ encodeSpanBio s
                ++ encodeBio rest s.stop n) = .ok st
          rw [List.append_assoc, spansGo_O_run_open (s.start - pos) (by omega)]
          have hidx : pos + (s.start - pos) = s.start := by omega
          rw [hidx, spansGo_span_Bio s h2]
          exact hst
        · rw [hclose]
          simp [closeAt]

/-- **C5.**  Round trip: re-encoding a well-formed span list (start-sorted,
pairwise disjoint, non-empty spans within `n` tokens) under BILOU or under
BIO and decoding it again with `spans_from_labels` in the same mode recovers
exactly the original spans. -/
theorem roundtrip (ss : List TypedSpan) (n : Nat) (hch : ChainFrom 0 n ss) :
    spansFromLabels (encodeBILOU ss 0 n) true = .ok ss
      ∧ spansFromLabels (encodeBio ss 0 n) false = .ok ss := by
  constructor
  · have hgo := encodeBILOU_go n ss 0 [] hch
    unfold spansFromLabels
    rw [hgo]
    rfl
  · obtain ⟨st, hst, hclose⟩ := encodeBio_go n ss 0 [] none none (fun h => rfl) hch
    have hlen : (encodeBio ss 0 n).length = n := by
      have := encodeBio_length n ss 0 hch
      omega
    unfold spansFromLabels
    rw [hst]
    show (match st.currentStart with
        | some cs =>
          if (false : Bool) = true then Except.error SeqError.unclosedSegment
          else Except.ok (st.spans ++ [⟨cs, (encodeBio ss 0 n).length, st.currentType⟩])
        | none => Except.ok st.spans) = Except.ok ss
    rw [hlen]
    simp only [closeAt, List.nil_append] at hclose
    cases hcs : st.currentStart with
    | some cs =>
      simp only [hcs] at hclose ⊢
      rw [if_neg (by simp), hclose]
    | none =>
      simp only [hcs] at hclose ⊢
      rw [hclose]

/-- Witness for C5 on a concrete two-span set over six tokens. -/
theorem roundtrip_witness :
    spansFromLabels (encodeBILOU [⟨1, 3, some "PER"⟩, ⟨4, 5, none⟩] 0 6) true
        = .ok [⟨1, 3, some "PER"⟩, ⟨4, 5, none⟩]
      ∧ spansFromLabels (encodeBio [⟨1, 3, some "PER"⟩, ⟨4, 5, none⟩] 0 6) false
        = .ok [⟨1, 3, some "PER"⟩, ⟨4, 5, none⟩] :=
  roundtrip [⟨1, 3, some "PER"⟩, ⟨4, 5, none⟩] 6 (by norm_num [ChainFrom])

end Wasp
